import Mathlib

/-!
Verification of the uncloggr streaming log-viewer engine: a shallow
embedding of the record store, line decoder, filter stack, scan/index
engine and navigation state, with theorems settling the specification
claims against the code.
-/

namespace Uncloggr

/-- A decoded log record.  `msg`, `level` and `timeMs` model the
recognized keys of the parsed JSON object (`none` models an absent key);
`timeMs` is the value `new Date(msg.time).getTime() || 0` computed by the
ingestion loop when the `time` key is present.  `_sort` is the composite
sort key string assigned at ingestion. -/
structure Record where
  msg : Option String := none
  level : Option Int := none
  timeMs : Option Nat := none
  _sort : String := ""
deriving DecidableEq, Inhabited

/-- A filter predicate.  The dynamically evaluated expression filter (the
`=` key) runs `eval` against the record, which can throw, so a predicate
returns either a boolean or an exception (`Except.error`). -/
abbrev Filter := Record → Except String Bool

/-- JS comparison `x.level >= t`: comparing `undefined` yields `false`. -/
def jsLevelGe (x : Record) (t : Int) : Bool :=
  match x.level with
  | some l => decide (t ≤ l)
  | none => false

/-- `filterNull = () => true`. -/
def filterNull : Filter := fun _ => .ok true

/-- `filterTrace = (x) => x.level >= 10`. -/
def filterTrace : Filter := fun x => .ok (jsLevelGe x 10)

/-- `filterDebug = (x) => x.level >= 20`. -/
def filterDebug : Filter := fun x => .ok (jsLevelGe x 20)

/-- `filterInfo = (x) => x.level >= 30`. -/
def filterInfo : Filter := fun x => .ok (jsLevelGe x 30)

/-- `filterWarning = (x) => x.level >= 40`. -/
def filterWarning : Filter := fun x => .ok (jsLevelGe x 40)

/-- `filterError = (x) => x.level >= 50`. -/
def filterError : Filter := fun x => .ok (jsLevelGe x 50)

/-- `filterFatal = (x) => x.level >= 60`. -/
def filterFatal : Filter := fun x => .ok (jsLevelGe x 60)

/-- The fallback record `\x7b msg: row, level: 100 \x7d` synthesized by
`parseLine` for undecodable lines. -/
def fallbackRecord (row : String) : Record :=
  { msg := some row, level := some 100 }

/-- The line decoder `parseLine(row)`.  `parse` abstracts `JSON.parse`
projected onto the recognized record fields; a row that is empty or does
not start with a brace, or whose parse throws, falls back to a record
with the original line as message and the undecodable sentinel level
100. -/
def parseLine (parse : String → Except String Record) (row : String) : Record :=
  if row = "" ∨ row.data.head? ≠ some '\x7b' then fallbackRecord row
  else
    match parse row with
    | .ok v => v
    | .error _ => fallbackRecord row

/-- JS `<` on strings: strict lexicographic order by code unit (for the
ASCII sort-key strings of this program, identical to comparison by
codepoint). -/
def strLt (s t : String) : Prop := List.Lex (· < ·) s.data t.data

instance : DecidableRel strLt := fun s t =>
  inferInstanceAs (Decidable (List.Lex (· < ·) s.data t.data))

/-- Computable form of `strLt`, used where the source uses `<` or
`localeCompare` on sort keys inside Boolean contexts. -/
def strLtB (s t : String) : Bool := decide (strLt s t)

/-- Non-strict key comparison: `s` is not after `t`. -/
def strLe (s t : String) : Prop := ¬ strLt t s

/-- JS `String.prototype.includes`. -/
def jsIncludes (s q : String) : Bool :=
  (List.range (s.data.length + 1)).any fun i =>
    (s.data.drop i).take q.data.length == q.data

/-- State of the scan/index engine: `scan` is the next unscanned store
position and `matching` the Matching Index produced so far. -/
structure ScanState where
  scan : Nat
  matching : List Nat
deriving DecidableEq

/-- `filters.every((fn) => fn.call(message, message))`: conjunction over
the filter stack, short-circuiting on the first failing predicate; an
exception thrown by a predicate propagates out of `every`. -/
def testAll : List Filter → Record → Except String Bool
  | [], _ => .ok true
  | f :: rest, message =>
    match f message with
    | .error e => .error e
    | .ok true => testAll rest message
    | .ok false => .ok false

/-- lodash `baseSortedIndexBy` with `retHighest = false`: binary search
for the lowest index at which `v` can be inserted keeping the array
sorted by `key`.  `fuel` only bounds the iteration count; `arr.length`
always suffices because `high - low` at least halves each step. -/
def sortedIndexGo (key : Nat → String) (v : String) (arr : List Nat) :
    Nat → Nat → Nat → Nat
  | 0, low, _ => low
  | fuel + 1, low, high =>
    if low < high then
      let mid := (low + high) / 2
      if strLtB (key (arr.getD mid 0)) v then
        sortedIndexGo key v arr fuel (mid + 1) high
      else
        sortedIndexGo key v arr fuel low mid
    else low

/-- `fp.sortedIndexBy(iteratee, value, array)`: the iteratee is applied
both to the array elements and to the searched value. -/
def sortedIndexBy (key : Nat → String) (v : Nat) (arr : List Nat) : Nat :=
  sortedIndexGo key (key v) arr arr.length 0 arr.length

/-- The iteratee `(idx) => messages[idx]._sort` used by the scan loop. -/
def sortKeyAt (messages : List Record) (i : Nat) : String :=
  (messages.getD i default)._sort

/-- The scan engine's inner while-loop, run to completion over the
remaining records (`remaining = messages.drop st.scan` at every call,
so the head of `remaining` is `messages[st.scan]`).  A passing position
is appended in append mode and inserted at the binary-search index in
sorted mode.  There is no exception handler around `testAll`: a fault
stops the loop with the state reached so far and the error. -/
def scanLoop (sort : Bool) (filters : List Filter) (messages : List Record) :
    List Record → ScanState → ScanState × Option String
  | [], st => (st, none)
  | message :: rest, st =>
    match testAll filters message with
    | .error e => (st, some e)
    | .ok pass =>
      let matching' :=
        if pass then
          if sort then
            st.matching.insertIdx
              (sortedIndexBy (sortKeyAt messages) st.scan st.matching) st.scan
          else st.matching ++ [st.scan]
        else st.matching
      scanLoop sort filters messages rest { scan := st.scan + 1, matching := matching' }

/-- A full scan pass from a fresh rescan (`scan = 0`, empty Matching
Index) over the whole store. -/
def runScan (sort : Bool) (filters : List Filter) (messages : List Record) :
    ScanState × Option String :=
  scanLoop sort filters messages messages { scan := 0, matching := [] }

/-- Concrete record with sort key `"2"`. -/
def recA : Record := { msg := some "a", level := some 30, timeMs := none, _sort := "2" }

/-- Concrete record with sort key `"1"`. -/
def recB : Record := { msg := some "b", level := some 50, timeMs := none, _sort := "1" }

/-- A dynamically evaluated expression filter whose `eval` throws. -/
def boomFilter : Filter := fun _ => .error "boom"

/-- Comparator order of the `s` key: `a._sort.localeCompare(b._sort) <= 0`
(code-unit order on the ASCII sort-key strings). -/
def recLe (a b : Record) : Prop := strLe a._sort b._sort

instance : DecidableRel recLe := fun a b =>
  inferInstanceAs (Decidable (¬ List.Lex (· < ·) b._sort.data a._sort.data))

/-- JS `Array.prototype.findIndex` with a running index, returning `-1`
when no element satisfies the predicate. -/
def jsFindIdxFrom {α : Type} (p : α → Bool) : List α → Nat → Int
  | [], _ => -1
  | x :: rest, i => if p x then (i : Int) else jsFindIdxFrom p rest (i + 1)

/-- `matching.findIndex(p)`. -/
def jsFindIndex (p : Nat → Bool) (l : List Nat) : Int :=
  jsFindIdxFrom p l 0

/-- JS `Array.prototype.indexOf`: `findIndex` with an equality test
(reference identity of record objects is modelled by structural equality;
the theorems assume the sought record occurs at most once in the
store). -/
def jsIndexOf (it : Record) (l : List Record) : Int :=
  jsFindIdxFrom (· == it) l 0

/-- `getPosition()`: resolve the cursor against the live Matching Index.
`none` models `item === undefined` (AUTO_TAIL, resolving to the last
index position).  A bound item is located by identity; if absent, the
code falls back to the first position whose record's sort key is greater
(sorted mode) or whose store position is greater than the item's store
position (append mode), and to the last position when neither search
finds anything. -/
def getPosition (sorted : Bool) (messages : List Record) (matching : List Nat)
    (item : Option Record) : Int :=
  match item with
  | none => (matching.length : Int) - 1
  | some it =>
    let idx := jsFindIndex (fun i => messages.getD i default == it) matching
    let idx :=
      if idx = -1 then
        if sorted then
          jsFindIndex (fun i => strLtB it._sort (messages.getD i default)._sort) matching
        else
          let messagesIdx := jsIndexOf it messages
          jsFindIndex (fun i => decide (messagesIdx < (i : Int))) matching
      else idx
    if idx = -1 then (matching.length : Int) - 1 else idx

/-- JS `Array.prototype.find` with an `(element, index)` callback,
returning the element. -/
def findFromAux (p : Nat → Nat → Bool) : List Nat → Nat → Option Nat
  | [], _ => none
  | x :: rest, i => if p i x then some x else findFromAux p rest (i + 1)

/-- `searchNext(query)`: with an empty query the cursor is untouched;
otherwise scan the Matching Index strictly after the current position for
the first record whose JSON serialization (abstracted as `stringify`)
contains the query; bind the cursor to it on a hit, and set the cursor to
`undefined` (AUTO_TAIL) on a miss. -/
def searchNext (stringify : Record → String) (sorted : Bool)
    (messages : List Record) (matching : List Nat) (item : Option Record)
    (query : String) : Option Record :=
  if query = "" then item
  else
    let pos := getPosition sorted messages matching item
    match findFromAux (fun i x =>
        decide (pos < (i : Int)) &&
          jsIncludes (stringify (messages.getD x default)) query) matching 0 with
    | some x => some (messages.getD x default)
    | none => none

/-- The `/` (search) prompt submit handler: remember the query for the
repeat-search keys, then run `searchNext`. -/
def submitSearch (stringify : Record → String) (sorted : Bool)
    (messages : List Record) (matching : List Nat) (item : Option Record)
    (query : String) : Option String × Option Record :=
  (some query, searchNext stringify sorted messages matching item query)

/-- JS `String(n).padStart(w, '0')`. -/
def padStart (w : Nat) (s : String) : String :=
  String.mk (List.replicate (w - s.length) '0') ++ s

/-- The ingestion sort key: 13-digit time, 4-digit source index and
9-digit line number, colon-separated. -/
def mkSort (time idx line : Nat) : String :=
  padStart 13 (toString time) ++ ":" ++ padStart 4 (toString idx) ++ ":" ++
    padStart 9 (toString line)

/-- The per-source ingestion loop body: the line counter increments for
every record; the carried `time` is updated only when the record has a
`time` key (its value modelled by `timeMs`, which already carries the
`new Date(...).getTime() || 0` result); every record receives its
`_sort` key.  The display-only `_from`/`_line` fields are not
modelled. -/
def ingestLoop (idx : Nat) : List Record → Nat → Nat → List Record
  | [], _, _ => []
  | msg :: rest, time, line =>
    let time' :=
      match msg.timeMs with
      | some t => t
      | none => time
    { msg with _sort := mkSort time' idx (line + 1) } ::
      ingestLoop idx rest time' (line + 1)

/-- One source's full ingestion, starting from `time = 0`, `line = 0`. -/
def ingest (idx : Nat) (msgs : List Record) : List Record :=
  ingestLoop idx msgs 0 0

/-- The most recent timestamp seen in a prefix (`0` if none): the value
the ingestion loop's `time` variable holds after consuming the
prefix. -/
def lastTime (msgs : List Record) : Nat :=
  msgs.foldl (fun acc m => m.timeMs.getD acc) 0

/-- Decimal digit list of a natural number, most significant digit
first: a proof-side characterization of core's `Nat.repr`. -/
def natDigits (n : Nat) : List Char :=
  if n < 10 then [Nat.digitChar n]
  else natDigits (n / 10) ++ [Nat.digitChar (n % 10)]
decreasing_by exact Nat.div_lt_self (by omega) (by omega)

/-- Fixed-width decimal digit list (`k` digits, zero-padded, most
significant first). -/
def digitsFW : Nat → Nat → List Char
  | 0, _ => []
  | k + 1, n => Nat.digitChar (n / 10 ^ k % 10) :: digitsFW k n

/-- Concrete ingestion record with timestamp 5. -/
def recT5 : Record := { msg := some "x", level := some 30, timeMs := some 5 }

/-- Concrete ingestion record with no `time` key. -/
def recTN : Record := { msg := some "y", level := some 30, timeMs := none }

/-- Concrete ingestion record with timestamp 7. -/
def recT7 : Record := { msg := some "z", level := some 30, timeMs := some 7 }

/-- The `s` key: `messages.sort((a, b) => a._sort.localeCompare(b._sort))`.
`Array.prototype.sort` is a stable comparator sort; a stable sort is
extensionally determined by the comparator, so `insertionSort` models
it. -/
def sortCmd (messages : List Record) : List Record :=
  messages.insertionSort recLe

/-- `messages.push(msg)` — the sole ingestion append path. -/
def appendRecord (messages : List Record) (msg : Record) : List Record :=
  messages ++ [msg]

/-- The view/engine state touched by the `c` (clear) key: the record
store, the Matching Index and scan cursor, the Selection Set (a list of
store positions) and the bound cursor item. -/
structure UiState where
  messages : List Record
  matching : List Nat
  scan : Nat
  selected : List Nat
  item : Option Record
deriving DecidableEq

/-- `rescan()`: `scan = matching.length = 0` (and wake the scan loop). -/
def rescanOp (st : UiState) : UiState :=
  { st with scan := 0, matching := [] }

/-- The `c` key: `messages.length = 0; rescan()`.  Neither `selected`
nor `item` is touched. -/
def clearCmd (st : UiState) : UiState :=
  rescanOp { st with messages := [] }

/-- An ingestion append arriving after some view command. -/
def appendMsg (st : UiState) (r : Record) : UiState :=
  { st with messages := st.messages ++ [r] }

/-- A concrete pre-clear state: one stored record, scanned and matching,
selected, and bound as the cursor item. -/
def uiPre : UiState :=
  { messages := [recA], matching := [0], scan := 1, selected := [0], item := some recA }

/-- Filter-stack commands of the input handler: pushes (`&`, `=`, `+`,
`-`), Backspace with or without Meta, and the level keys `1`-`6`. -/
inductive FilterOp where
  | push : Filter → FilterOp
  | backspace : Bool → FilterOp
  | setLevel : Filter → FilterOp

/-- Effect of one command on the filter stack: push appends; Backspace
truncates to a single `filterNull` slot when Meta is held or only slot 0
remains, and otherwise pops the last filter; a level key replaces
slot 0. -/
def applyFilterOp (fs : List Filter) : FilterOp → List Filter
  | .push f => fs ++ [f]
  | .backspace meta => if meta ∨ fs.length = 1 then [filterNull] else fs.dropLast
  | .setLevel f => fs.set 0 f

end Uncloggr

namespace Uncloggr

theorem lexLt_trans : ∀ {a b c : List Char},
    List.Lex (· < ·) a b → List.Lex (· < ·) b c → List.Lex (· < ·) a c := by
  intro a b c hab
  induction hab generalizing c with
  | nil =>
    intro hbc
    cases hbc with
    | cons _ => exact List.Lex.nil
    | rel _ => exact List.Lex.nil
  | cons h ih =>
    intro hbc
    cases hbc with
    | cons h2 => exact List.Lex.cons (ih h2)
    | rel h2 => exact List.Lex.rel h2
  | rel h =>
    intro hbc
    cases hbc with
    | cons h2 => exact List.Lex.rel h
    | rel h2 => exact List.Lex.rel (lt_trans h h2)

theorem lexLt_asymm : ∀ {a b : List Char},
    List.Lex (· < ·) a b → ¬ List.Lex (· < ·) b a := by
  intro a b hab
  induction hab with
  | nil => intro h; cases h
  | cons h ih =>
    intro h2
    cases h2 with
    | cons h3 => exact ih h3
    | rel h3 => exact absurd h3 (lt_irrefl _)
  | rel h =>
    intro h2
    cases h2 with
    | cons h3 => exact absurd h (lt_irrefl _)
    | rel h3 => exact absurd (lt_trans h h3) (lt_irrefl _)

theorem lexLt_trichotomy (a : List Char) : ∀ b : List Char,
    List.Lex (· < ·) a b ∨ a = b ∨ List.Lex (· < ·) b a := by
  induction a with
  | nil =>
    intro b
    cases b with
    | nil => exact Or.inr (Or.inl rfl)
    | cons y m => exact Or.inl List.Lex.nil
  | cons x l ih =>
    intro b
    cases b with
    | nil => exact Or.inr (Or.inr List.Lex.nil)
    | cons y m =>
      rcases lt_trichotomy x y with h | h | h
      · exact Or.inl (List.Lex.rel h)
      · subst h
        rcases ih m with h' | h' | h'
        · exact Or.inl (List.Lex.cons h')
        · exact Or.inr (Or.inl (by rw [h']))
        · exact Or.inr (Or.inr (List.Lex.cons h'))
      · exact Or.inr (Or.inr (List.Lex.rel h))

theorem lexLt_irrefl (a : List Char) : ¬ List.Lex (· < ·) a a :=
  fun h => lexLt_asymm h h

instance : IsTrans Record recLe := by
  constructor
  intro a b c hab hbc hca
  rcases lexLt_trichotomy b._sort.data a._sort.data with h | h | h
  · exact hab h
  · have hca' : List.Lex (· < ·) c._sort.data a._sort.data := hca
    rw [← h] at hca'
    exact hbc hca'
  · exact hbc (lexLt_trans hca h)

instance : IsTotal Record recLe := by
  constructor
  intro a b
  by_cases h : List.Lex (· < ·) b._sort.data a._sort.data
  · exact Or.inr (lexLt_asymm h)
  · exact Or.inl h

/-- Claim C4: for every raw input line, including the empty line and
arbitrary non-JSON text, the line decoder returns exactly one Record
(it is a total function into `Record`) and never throws: on JSON parse
failure or non-object-shaped input (a row that is empty or does not start
with a brace) it synthesizes a fallback Record whose message is the
original line and whose level is the undecodable sentinel 100, and on a
successful parse it returns the decoded record; being a function, the
same input always yields an equivalent Record. -/
theorem c4_parseLine_total (parse : String → Except String Record) (row : String) :
    ((row = "" ∨ row.data.head? ≠ some '\x7b') →
      parseLine parse row = fallbackRecord row) ∧
    (∀ e, parse row = .error e → parseLine parse row = fallbackRecord row) ∧
    (∀ v, row.data.head? = some '\x7b' → parse row = .ok v →
      parseLine parse row = v) := by
  refine ⟨fun h => ?_, fun e he => ?_, fun v hrow hok => ?_⟩
  · simp [parseLine, h]
  · by_cases h : row = "" ∨ row.data.head? ≠ some '\x7b'
    · simp [parseLine, h]
    · simp only [parseLine, h, if_neg, ite_false, he]
  · have hne : ¬ (row = "" ∨ row.data.head? ≠ some '\x7b') := by
      intro h
      rcases h with h | h
      · subst h; simp at hrow
      · exact h hrow
    simp [parseLine, hne, hok]

/-- Witness for C4 at the concrete undecodable line `"hello"` with a
parse oracle that always throws. -/
theorem c4_parseLine_total_witness :
    parseLine (fun s => .error s) "hello" = fallbackRecord "hello" :=
  (c4_parseLine_total (fun s => .error s) "hello").1 (by decide)

theorem getD_of_drop_eq_cons {α : Type} [Inhabited α] :
    ∀ (l : List α) (n : Nat) (x : α) (rest : List α),
      l.drop n = x :: rest → l.getD n default = x
  | [], n, x, rest, h => by simp at h
  | a :: l, 0, x, rest, h => by simpa using congrArg List.head? h
  | a :: l, n + 1, x, rest, h => by
    simpa using getD_of_drop_eq_cons l n x rest (by simpa using h)

theorem mem_of_mem_insertIdx {α : Type} {x a : α} :
    ∀ {n : Nat} {l : List α}, x ∈ l.insertIdx n a → x = a ∨ x ∈ l
  | 0, l, h => by simpa using h
  | n + 1, [], h => by simp [List.insertIdx_succ_nil] at h
  | n + 1, hd :: tl, h => by
    rw [List.insertIdx_succ_cons] at h
    rcases List.mem_cons.mp h with h | h
    · exact Or.inr (h ▸ List.mem_cons_self _ _)
    · rcases mem_of_mem_insertIdx h with h | h
      · exact Or.inl h
      · exact Or.inr (List.mem_cons_of_mem _ h)

theorem scanLoop_fault (sort : Bool) (filters : List Filter) (messages : List Record) :
    ∀ (remaining : List Record) (st st' : ScanState) (e : String),
      remaining = messages.drop st.scan →
      (∀ i ∈ st.matching, i < st.scan) →
      (∀ j < st.scan, ∃ b, testAll filters (messages.getD j default) = .ok b) →
      scanLoop sort filters messages remaining st = (st', some e) →
      st'.scan < messages.length ∧
      testAll filters (messages.getD st'.scan default) = .error e ∧
      (∀ i ∈ st'.matching, i < st'.scan) ∧
      (∀ j < st'.scan, ∃ b, testAll filters (messages.getD j default) = .ok b)
  | [], st, st', e, _, _, _, h => by simp [scanLoop] at h
  | message :: rest, st, st', e, hdrop, hmem, hok, h => by
    have hget : messages.getD st.scan default = message :=
      getD_of_drop_eq_cons messages st.scan message rest hdrop.symm
    have hlt : st.scan < messages.length := by
      by_contra hge
      rw [List.drop_eq_nil_of_le (Nat.le_of_not_lt hge)] at hdrop
      exact List.noConfusion hdrop
    rw [scanLoop] at h
    cases htest : testAll filters message with
    | error e' =>
      rw [htest] at h
      obtain ⟨hst, he⟩ := Prod.mk.injEq .. ▸ h
      obtain rfl : st = st' := hst
      obtain rfl : e' = e := by simpa using he
      exact ⟨hlt, hget ▸ htest, hmem, hok⟩
    | ok pass =>
      rw [htest] at h
      refine scanLoop_fault sort filters messages rest _ st' e ?_ ?_ ?_ h
      · simpa using congrArg List.tail hdrop
      · intro i hi
        show i < st.scan + 1
        have : i < st.scan ∨ i = st.scan := by
          dsimp only at hi
          split at hi
          · split at hi
            · rcases mem_of_mem_insertIdx hi with h' | h'
              · exact Or.inr h'
              · exact Or.inl (hmem i h')
            · rcases List.mem_append.mp hi with h' | h'
              · exact Or.inl (hmem i h')
              · exact Or.inr (by simpa using h')
          · exact Or.inl (hmem i hi)
        omega
      · intro j hj
        rcases Nat.lt_succ_iff_lt_or_eq.mp hj with hj' | rfl
        · exact hok j hj'
        · exact ⟨pass, hget ▸ htest⟩

/-- Claim C1 counterexample: with filter stack `[filterNull, boomFilter]`
— a stack containing a dynamically evaluated expression predicate that
throws — the scan over the store `[recA, recB]` aborts at the very first
Record: the fault propagates out of the loop as `some "boom"`, the scan
cursor stops short of the store length, and `recB`, which satisfies every
non-throwing filter, never enters the Matching Index.  This refutes the
claim that a throwing predicate is treated as a non-match while the scan
loop continues with the remaining Records. -/
theorem c1_counterexample :
    (runScan false [filterNull, boomFilter] [recA, recB]).2 = some "boom" ∧
    (runScan false [filterNull, boomFilter] [recA, recB]).1.scan ≠
      [recA, recB].length ∧
    (runScan false [filterNull, boomFilter] [recA, recB]).1.matching = [] := by
  decide

/-- Claim C1 (amended): if a filter predicate — such as the dynamically
evaluated expression filter — throws during `testAll` on some Record of a
fresh scan pass, the exception propagates out of the scan loop instead of
being treated as a non-match: the loop terminates at the faulting Record
(its position is strictly before the store length), every Record before
the fault was tested without fault, and the Matching Index retains
exactly positions scanned before the fault. -/
theorem c1_scan_fault_aborts (sort : Bool) (filters : List Filter)
    (messages : List Record) (st : ScanState) (e : String)
    (h : runScan sort filters messages = (st, some e)) :
    st.scan < messages.length ∧
    testAll filters (messages.getD st.scan default) = .error e ∧
    (∀ i ∈ st.matching, i < st.scan) ∧
    (∀ j < st.scan, ∃ b, testAll filters (messages.getD j default) = .ok b) :=
  scanLoop_fault sort filters messages messages ⟨0, []⟩ st e
    (by simp) (by simp) (by simp) h

/-- Witness for the amended C1 at the concrete store `[recA]` and the
concrete faulting stack `[filterNull, boomFilter]`. -/
theorem c1_scan_fault_aborts_witness :
    (⟨0, []⟩ : ScanState).scan < [recA].length ∧
    testAll [filterNull, boomFilter] ([recA].getD (⟨0, []⟩ : ScanState).scan default) =
      .error "boom" ∧
    (∀ i ∈ (⟨0, []⟩ : ScanState).matching, i < (⟨0, []⟩ : ScanState).scan) ∧
    (∀ j < (⟨0, []⟩ : ScanState).scan,
      ∃ b, testAll [filterNull, boomFilter] ([recA].getD j default) = .ok b) :=
  c1_scan_fault_aborts false [filterNull, boomFilter] [recA] ⟨0, []⟩ "boom" (by decide)

/-- Claim C3 counterexample: start from a state with one stored record
selected (Selection Set `[0]`), clear with `c`, then append `recB`.  The
Selection Set still holds the stale store position `0`, which now
resolves to the post-clear record `recB` — refuting the claim that the
Selection Set retains no stale identities that could alias Records
appended after the clear. -/
theorem c3_counterexample :
    (appendMsg (clearCmd uiPre) recB).selected = [0] ∧
    0 < (appendMsg (clearCmd uiPre) recB).messages.length ∧
    (appendMsg (clearCmd uiPre) recB).messages.getD 0 default = recB ∧
    recB ≠ recA := by
  decide

/-- Claim C3 (amended): the `c` clear empties the store, empties the
Matching Index and resets the scan cursor to 0, and store positions for
later appends restart from 0 (so `sequencing` restarts); but the
Selection Set and the bound cursor item are NOT invalidated: both survive
the clear unchanged, and a retained selection position aliases whatever
Record occupies that store position after the clear. -/
theorem c3_clear_resets_derived_state (st : UiState) (r : Record) :
    (clearCmd st).messages = [] ∧
    (clearCmd st).matching = [] ∧
    (clearCmd st).scan = 0 ∧
    (clearCmd st).selected = st.selected ∧
    (clearCmd st).item = st.item ∧
    (appendMsg (clearCmd st) r).messages = [r] ∧
    (appendMsg (clearCmd st) r).selected = st.selected := by
  simp [clearCmd, rescanOp, appendMsg]

/-- Claim C6 counterexample: records arrive in order `recA` (sort key
`"2"`) then `recB` (sort key `"1"`); the `s` key physically reorders the
store in place to `[recB, recA]`, so the relative store order of this
pair no longer equals their arrival order — refuting the claim that no
operation reorders already-stored Records in place. -/
theorem c6_counterexample :
    appendRecord (appendRecord [] recA) recB = [recA, recB] ∧
    sortCmd [recA, recB] = [recB, recA] ∧
    ([recB, recA] : List Record) ≠ [recA, recB] := by
  decide

/-- Claim C6 (amended): append is the sole ingestion mutation and always
places the new Record at the end, preserving the relative order of
already-stored Records; but the `s` command is a store mutation that does
physically reorder in place: it permutes the store into sort-key order.
Relative store order equals arrival order only in the absence of the
sort (and clear) commands. -/
theorem c6_store_mutations (messages : List Record) (r : Record) :
    appendRecord messages r = messages ++ [r] ∧
    (sortCmd messages).Perm messages ∧
    List.Sorted recLe (sortCmd messages) := by
  exact ⟨rfl, List.perm_insertionSort recLe messages,
    List.sorted_insertionSort recLe messages⟩

/-- Claim C8 counterexample: the line `"not-json"` decodes to a record
with the sentinel level 100, and 100 satisfies `x.level >= 60` (and every
other level threshold, all of which lie below the sentinel), so the
record is NOT excluded by a level filter: a scan with `filterFatal` alone
puts it into the Matching Index — refuting the claim that it is excluded
by any filter requiring level below the sentinel. -/
theorem c8_counterexample :
    testAll [filterFatal] (parseLine (fun s => .error s) "not-json") = .ok true ∧
    (runScan false [filterFatal] [parseLine (fun s => .error s) "not-json"]).1.matching
      = [0] :=
  ⟨rfl, rfl⟩

/-- Claim C8 (amended): the input line `"not-json"` decodes to a Record
with message `"not-json"` and the undecodable sentinel level 100; since
the sentinel is greater than every level threshold (10-60), the Record
SATISFIES every level-threshold filter and is included in the Matching
Index both when a level filter is active and when no level filter is
active. -/
theorem c8_sentinel_level (parse : String → Except String Record) (f : Filter)
    (hf : f ∈ [filterTrace, filterDebug, filterInfo, filterWarning, filterError,
      filterFatal]) :
    (parseLine parse "not-json").msg = some "not-json" ∧
    (parseLine parse "not-json").level = some 100 ∧
    testAll [f] (parseLine parse "not-json") = .ok true ∧
    (runScan false [f] [parseLine parse "not-json"]).1.matching = [0] ∧
    (runScan false [filterNull] [parseLine parse "not-json"]).1.matching = [0] := by
  have h : parseLine parse "not-json" = fallbackRecord "not-json" := by
    rw [parseLine, if_pos (Or.inr (by decide))]
  rw [h]
  have hf' : f = filterTrace ∨ f = filterDebug ∨ f = filterInfo ∨ f = filterWarning ∨
      f = filterError ∨ f = filterFatal := by simpa using hf
  rcases hf' with rfl | rfl | rfl | rfl | rfl | rfl <;>
    exact ⟨rfl, rfl, rfl, rfl, rfl⟩

/-- Witness for the amended C8 at the concrete level filter `filterFatal`
and an always-throwing parse oracle. -/
theorem c8_sentinel_level_witness :
    (parseLine (fun s => .error s) "not-json").msg = some "not-json" ∧
    (parseLine (fun s => .error s) "not-json").level = some 100 ∧
    testAll [filterFatal] (parseLine (fun s => .error s) "not-json") = .ok true ∧
    (runScan false [filterFatal] [parseLine (fun s => .error s) "not-json"]).1.matching
      = [0] ∧
    (runScan false [filterNull] [parseLine (fun s => .error s) "not-json"]).1.matching
      = [0] :=
  c8_sentinel_level (fun s => .error s) filterFatal (by simp)

theorem applyFilterOp_length (fs : List Filter) (op : FilterOp) (h : 1 ≤ fs.length) :
    1 ≤ (applyFilterOp fs op).length := by
  cases op with
  | push f => simp [applyFilterOp]
  | backspace meta =>
    simp only [applyFilterOp]
    split
    · simp
    · next hc =>
      push_neg at hc
      rw [List.length_dropLast]
      have := hc.2
      omega
  | setLevel f => simpa [applyFilterOp] using h

theorem foldl_applyFilterOp_length :
    ∀ (ops : List FilterOp) (fs : List Filter), 1 ≤ fs.length →
      1 ≤ (ops.foldl applyFilterOp fs).length
  | [], _, h => h
  | op :: ops, fs, h =>
    foldl_applyFilterOp_length ops _ (applyFilterOp_length fs op h)

theorem findIdx?_cons_zero {α : Type} (p : α → Bool) (x : α) (rest : List α) :
    (x :: rest).findIdx? p = if p x then some 0 else (rest.findIdx? p).map (· + 1) := by
  simp [List.findIdx?_cons, List.findIdx?_succ]

theorem jsFindIdxFrom_eq {α : Type} (p : α → Bool) :
    ∀ (l : List α) (k : Nat),
      jsFindIdxFrom p l k =
        match l.findIdx? p with
        | some j => ((k + j : Nat) : Int)
        | none => -1
  | [], _ => rfl
  | x :: rest, k => by
    rw [findIdx?_cons_zero]
    by_cases hp : p x
    · simp [jsFindIdxFrom, hp]
    · have ih := jsFindIdxFrom_eq p rest (k + 1)
      simp only [jsFindIdxFrom, hp, ite_false, Bool.false_eq_true]
      rw [ih]
      cases h : rest.findIdx? p with
      | none => simp
      | some j =>
        simp only [Option.map_some']
        congr 1
        omega

theorem jsFindIndex_eq (p : Nat → Bool) (l : List Nat) :
    jsFindIndex p l =
      match l.findIdx? p with
      | some j => (j : Int)
      | none => -1 := by
  rw [jsFindIndex, jsFindIdxFrom_eq]
  cases h : l.findIdx? p <;> simp

theorem findIdx?_congr_mem {α : Type} {p q : α → Bool} :
    ∀ l : List α, (∀ x ∈ l, p x = q x) → l.findIdx? p = l.findIdx? q
  | [], _ => rfl
  | x :: rest, h => by
    rw [findIdx?_cons_zero, findIdx?_cons_zero, h x (List.mem_cons_self x rest),
      findIdx?_congr_mem rest (fun y hy => h y (List.mem_cons_of_mem x hy))]

theorem getD_eq_getElem' {α : Type} (l : List α) (d : α) {i : Nat}
    (h : i < l.length) : l.getD i d = l[i] := by
  rw [List.getD_eq_getElem?_getD, List.getElem?_eq_getElem h]
  rfl

theorem findIdx?_eq_some_of_getD {α : Type} [Inhabited α] (p : α → Bool)
    (l : List α) (j : Nat) (hj : j < l.length) (hpj : p (l.getD j default) = true)
    (hbefore : ∀ i, i < j → p (l.getD i default) = false) :
    l.findIdx? p = some j := by
  rw [List.findIdx?_eq_some_iff_getElem]
  refine ⟨hj, ?_, ?_⟩
  · rw [← getD_eq_getElem' l default hj]
    exact hpj
  · intro i hij
    rw [← getD_eq_getElem' l default (Nat.lt_trans hij hj), hbefore i hij]
    exact Bool.false_ne_true

/-- Claim C7: for a cursor bound to Record identity `it` stored uniquely
at store position `mi`, resolution against the Matching Index returns
`it`'s position when `mi` is in the index; when absent, it returns the
first index position whose Record follows `it` — by sort key in sorted
mode, by store order in append mode — and the last index position
(`matching.length - 1`) when no position ahead exists. -/
theorem c7_cursor_resolution (sorted : Bool) (messages : List Record)
    (matching : List Nat) (it : Record) (mi : Nat)
    (hmi : mi < messages.length)
    (hs : messages.getD mi default = it)
    (huniq : ∀ j, j < messages.length → messages.getD j default = it → j = mi)
    (hrange : ∀ i ∈ matching, i < messages.length) :
    getPosition sorted messages matching (some it) =
      match matching.findIdx? (fun i => i == mi) with
      | some p => (p : Int)
      | none =>
        match (if sorted then
            matching.findIdx? (fun i => strLtB it._sort (messages.getD i default)._sort)
          else matching.findIdx? (fun i => decide (mi < i))) with
        | some p => (p : Int)
        | none => (matching.length : Int) - 1 := by
  have hpq : ∀ i ∈ matching,
      (messages.getD i default == it) = (i == mi) := by
    intro i hi
    apply Bool.eq_iff_iff.mpr
    simp only [beq_iff_eq]
    constructor
    · intro he
      exact huniq i (hrange i hi) he
    · intro he
      subst he
      exact hs
  have hF1 : jsFindIndex (fun i => messages.getD i default == it) matching =
      match matching.findIdx? (fun i => i == mi) with
      | some j => (j : Int)
      | none => -1 := by
    rw [jsFindIndex_eq, findIdx?_congr_mem matching hpq]
  have hIdxOf : jsIndexOf it messages = (mi : Int) := by
    rw [jsIndexOf, jsFindIdxFrom_eq,
      findIdx?_eq_some_of_getD (· == it) messages mi hmi
        (by rw [hs]; exact beq_self_eq_true it)
        (fun i hij => by
          have hlt : i < messages.length := Nat.lt_trans hij hmi
          have hne : messages.getD i default ≠ it := fun he =>
            Nat.lt_irrefl i (huniq i hlt he ▸ hij)
          exact beq_eq_false_iff_ne.mpr hne)]
    simp
  have hcastP : (fun i : Nat => decide (jsIndexOf it messages < (i : Int))) =
      (fun i : Nat => decide (mi < i)) := by
    funext i
    rw [hIdxOf]
    exact decide_eq_decide.mpr Int.ofNat_lt
  simp only [getPosition, hF1, hcastP,
    jsFindIndex_eq (fun i => strLtB it._sort (messages.getD i default)._sort) matching,
    jsFindIndex_eq (fun i => decide (mi < i)) matching]
  cases h1 : matching.findIdx? (fun i => i == mi) with
  | some p =>
    have hne : ((p : Nat) : Int) ≠ -1 := by omega
    simp [hne]
  | none =>
    cases sorted with
    | true =>
      cases h2 : matching.findIdx?
          (fun i => strLtB it._sort (messages.getD i default)._sort) with
      | some p =>
        have hne : ((p : Nat) : Int) ≠ -1 := by omega
        simp [hne]
      | none => simp
    | false =>
      cases h2 : matching.findIdx? (fun i => decide (mi < i)) with
      | some p =>
        have hne : ((p : Nat) : Int) ≠ -1 := by omega
        simp [hne]
      | none => simp

/-- Witness for C7: store `[recA, recB]`, Matching Index `[1]`, cursor
bound to `recA` (store position 0, filtered out of the index), append
mode: the resolved position is the first index position whose store
position follows 0, namely position 0 of the index. -/
theorem c7_cursor_resolution_witness :
    getPosition false [recA, recB] [1] (some recA) =
      match ([1] : List Nat).findIdx? (fun i => i == 0) with
      | some p => (p : Int)
      | none =>
        match (if false then
            ([1] : List Nat).findIdx?
              (fun i => strLtB recA._sort (([recA, recB] : List Record).getD i default)._sort)
          else ([1] : List Nat).findIdx? (fun i => decide (0 < i))) with
        | some p => (p : Int)
        | none => (([1] : List Nat).length : Int) - 1 :=
  c7_cursor_resolution false [recA, recB] [1] recA 0 (by decide) (by decide)
    (by decide) (by decide)

theorem findFromAux_eq_none {p : Nat → Nat → Bool} :
    ∀ (l : List Nat) (k : Nat),
      findFromAux p l k = none ↔
        ∀ j, j < l.length → p (k + j) (l.getD j 0) = false
  | [], k => by simp [findFromAux]
  | x :: rest, k => by
    rw [findFromAux]
    by_cases hp : p k x
    · simp only [hp, ite_true]
      constructor
      · intro h
        exact absurd h (Option.some_ne_none x)
      · intro h
        have h0 := h 0 (Nat.succ_pos rest.length)
        rw [Nat.add_zero, List.getD_cons_zero] at h0
        rw [hp] at h0
        exact absurd h0 (by decide)
    · simp only [hp, ite_false, Bool.false_eq_true]
      rw [findFromAux_eq_none rest (k + 1)]
      constructor
      · intro h j hj
        cases j with
        | zero =>
          rw [Nat.add_zero, List.getD_cons_zero]
          exact Bool.eq_false_iff.mpr hp
        | succ j =>
          rw [List.getD_cons_succ]
          have := h j (Nat.lt_of_succ_lt_succ hj)
          rwa [show k + 1 + j = k + (j + 1) by omega] at this
      · intro h j hj
        have := h (j + 1) (Nat.succ_lt_succ hj)
        rw [List.getD_cons_succ] at this
        rwa [show k + (j + 1) = k + 1 + j by omega] at this

theorem findFromAux_eq_some {p : Nat → Nat → Bool} :
    ∀ (l : List Nat) (k : Nat) (x : Nat),
      findFromAux p l k = some x →
      ∃ j, j < l.length ∧ x = l.getD j 0 ∧ p (k + j) x = true ∧
        ∀ i, i < j → p (k + i) (l.getD i 0) = false
  | [], k, x, h => by simp [findFromAux] at h
  | y :: rest, k, x, h => by
    rw [findFromAux] at h
    by_cases hp : p k y
    · rw [if_pos hp] at h
      obtain rfl : y = x := by simpa using h
      exact ⟨0, Nat.succ_pos rest.length, by simp, by simpa using hp,
        fun i hi => absurd hi (Nat.not_lt_zero i)⟩
    · rw [if_neg hp] at h
      obtain ⟨j, hj, hx, hpj, hbefore⟩ := findFromAux_eq_some rest (k + 1) x h
      refine ⟨j + 1, Nat.succ_lt_succ hj, by simpa using hx, ?_, ?_⟩
      · rwa [show k + (j + 1) = k + 1 + j by omega]
      · intro i hi
        cases i with
        | zero =>
          rw [Nat.add_zero, List.getD_cons_zero]
          exact Bool.eq_false_iff.mpr hp
        | succ i =>
          rw [List.getD_cons_succ]
          have := hbefore i (Nat.lt_of_succ_lt_succ hi)
          rwa [show k + 1 + i = k + (i + 1) by omega] at this

/-- Claim C2 counterexample: searching for a query that matches nothing
after the current position does NOT leave the cursor unchanged: with the
cursor bound to `recA`, a missed search resets the cursor binding to
`undefined` (AUTO_TAIL), and no "not found" status exists anywhere in the
handler. -/
theorem c2_counterexample :
    searchNext (fun r => r.msg.getD "") false [recA] [0] (some recA) "zzz" = none ∧
    some recA ≠ (none : Option Record) := by
  constructor
  · rfl
  · decide

/-- Claim C2 (amended): for a non-empty query, `searchNext` scans the
Matching Index strictly forward from the current resolved position for
the first Record whose canonical string projection contains the query;
on a hit it binds the cursor to that Record (the earliest qualifying
index position), and the `/` handler remembers the query for the
repeat-search keys; on a miss the cursor is set to `undefined`
(AUTO_TAIL, resolving to the last match) rather than left unchanged, and
no "not found" status is surfaced. -/
theorem c2_search_semantics (stringify : Record → String) (sorted : Bool)
    (messages : List Record) (matching : List Nat) (item : Option Record)
    (query : String) (hq : query ≠ "") :
    (searchNext stringify sorted messages matching item query = none ↔
      ∀ j, j < matching.length →
        ¬(getPosition sorted messages matching item < (j : Int) ∧
          jsIncludes (stringify (messages.getD (matching.getD j 0) default)) query
            = true)) ∧
    (∀ r, searchNext stringify sorted messages matching item query = some r →
      ∃ j, j < matching.length ∧
        getPosition sorted messages matching item < (j : Int) ∧
        jsIncludes (stringify (messages.getD (matching.getD j 0) default)) query
          = true ∧
        r = messages.getD (matching.getD j 0) default ∧
        ∀ i, i < j →
          ¬(getPosition sorted messages matching item < (i : Int) ∧
            jsIncludes (stringify (messages.getD (matching.getD i 0) default)) query
              = true)) ∧
    (submitSearch stringify sorted messages matching item query).1 = some query := by
  have hand : ∀ (i x : Nat),
      ((decide (getPosition sorted messages matching item < (i : Int)) &&
        jsIncludes (stringify (messages.getD x default)) query) = false) ↔
      ¬(getPosition sorted messages matching item < (i : Int) ∧
        jsIncludes (stringify (messages.getD x default)) query = true) := by
    intro i x
    rw [Bool.eq_false_iff, Ne, Bool.and_eq_true, decide_eq_true_eq]
  refine ⟨?_, ?_, rfl⟩
  · rw [searchNext, if_neg hq]
    dsimp only
    split
    · rename_i x hfind
      simp only [Option.some_ne_none, false_iff]
      intro hall
      obtain ⟨j, hj, hx, hpj, _⟩ := findFromAux_eq_some _ 0 x hfind
      rw [Nat.zero_add] at hpj
      have hj' := hall j hj
      rw [Bool.and_eq_true, decide_eq_true_eq] at hpj
      rw [← hx] at hj'
      exact hj' hpj
    · rename_i hfind
      simp only [true_iff]
      have h := (findFromAux_eq_none matching 0).mp hfind
      intro j hj
      have hjh := h j hj
      rw [Nat.zero_add] at hjh
      exact (hand j (matching.getD j 0)).mp hjh
  · rw [searchNext, if_neg hq]
    intro r h
    dsimp only at h
    split at h
    · rename_i x hfind
      obtain rfl : messages.getD x default = r := by simpa using h
      obtain ⟨j, hj, hx, hpj, hbefore⟩ := findFromAux_eq_some _ 0 x hfind
      rw [Nat.zero_add] at hpj
      rw [Bool.and_eq_true, decide_eq_true_eq] at hpj
      refine ⟨j, hj, hpj.1, by rw [← hx]; exact hpj.2, by rw [hx], ?_⟩
      intro i hi
      have hih := hbefore i hi
      rw [Nat.zero_add] at hih
      exact (hand i (matching.getD i 0)).mp hih
    · exact absurd h (by simp)

/-- Witness for the amended C2 at a concrete hit: store `[recA, recB]`,
index `[0, 1]`, cursor on `recA` (position 0), query `"b"` found at index
position 1. -/
theorem c2_search_semantics_witness :
    (searchNext (fun r => r.msg.getD "") false [recA, recB] [0, 1] (some recA) "b"
        = none ↔
      ∀ j, j < ([0, 1] : List Nat).length →
        ¬(getPosition false [recA, recB] [0, 1] (some recA) < (j : Int) ∧
          jsIncludes ((fun r => r.msg.getD "")
              (([recA, recB] : List Record).getD (([0, 1] : List Nat).getD j 0) default))
            "b" = true)) ∧
    (∀ r, searchNext (fun r => r.msg.getD "") false [recA, recB] [0, 1] (some recA) "b"
        = some r →
      ∃ j, j < ([0, 1] : List Nat).length ∧
        getPosition false [recA, recB] [0, 1] (some recA) < (j : Int) ∧
        jsIncludes ((fun r => r.msg.getD "")
            (([recA, recB] : List Record).getD (([0, 1] : List Nat).getD j 0) default))
          "b" = true ∧
        r = ([recA, recB] : List Record).getD (([0, 1] : List Nat).getD j 0) default ∧
        ∀ i, i < j →
          ¬(getPosition false [recA, recB] [0, 1] (some recA) < (i : Int) ∧
            jsIncludes ((fun r => r.msg.getD "")
                (([recA, recB] : List Record).getD (([0, 1] : List Nat).getD i 0) default))
              "b" = true)) ∧
    (submitSearch (fun r => r.msg.getD "") false [recA, recB] [0, 1] (some recA) "b").1
      = some "b" :=
  c2_search_semantics (fun r => r.msg.getD "") false [recA, recB] [0, 1]
    (some recA) "b" (by decide)

theorem strLt_of_le_of_lt {a b v : String} (h1 : strLe a b) (h2 : strLt b v) :
    strLt a v := by
  rcases lexLt_trichotomy a.data b.data with h | h | h
  · exact lexLt_trans h h2
  · show List.Lex (· < ·) a.data v.data
    rw [h]
    exact h2
  · exact absurd h h1

theorem not_strLt_of_le {a b v : String} (h1 : strLe a b) (h2 : ¬ strLt a v) :
    ¬ strLt b v :=
  fun hc => h2 (strLt_of_le_of_lt h1 hc)

theorem strLtB_eq_true {s t : String} : strLtB s t = true ↔ strLt s t := by
  rw [strLtB]
  exact ⟨of_decide_eq_true, decide_eq_true⟩

theorem strLtB_eq_false {s t : String} : strLtB s t = false ↔ ¬ strLt s t := by
  constructor
  · intro h hc
    have ht := strLtB_eq_true.mpr hc
    rw [h] at ht
    exact absurd ht (by decide)
  · intro h
    cases hb : strLtB s t
    · rfl
    · exact absurd (strLtB_eq_true.mp hb) h

theorem pairwise_getD {α : Type} [Inhabited α] {R : α → α → Prop} {l : List α}
    (h : l.Pairwise R) {i j : Nat} (hij : i < j) (hj : j < l.length) :
    R (l.getD i default) (l.getD j default) := by
  rw [getD_eq_getElem' l default (Nat.lt_trans hij hj), getD_eq_getElem' l default hj]
  exact List.pairwise_iff_getElem.mp h i j (Nat.lt_trans hij hj) hj hij

theorem sortedIndexGo_spec (key : Nat → String) (v : String) (arr : List Nat)
    (hsorted : arr.Pairwise (fun i j => strLe (key i) (key j))) :
    ∀ (fuel low high : Nat),
      high ≤ arr.length → low ≤ high → high - low ≤ fuel →
      (∀ i, i < low → strLt (key (arr.getD i 0)) v) →
      (∀ i, high ≤ i → i < arr.length → ¬ strLt (key (arr.getD i 0)) v) →
      sortedIndexGo key v arr fuel low high ≤ arr.length ∧
      (∀ i, i < sortedIndexGo key v arr fuel low high →
        strLt (key (arr.getD i 0)) v) ∧
      (∀ i, sortedIndexGo key v arr fuel low high ≤ i → i < arr.length →
        ¬ strLt (key (arr.getD i 0)) v) := by
  intro fuel
  induction fuel with
  | zero =>
    intro low high hh hlh hfuel hlow hhigh
    have : low = high := by omega
    subst this
    exact ⟨le_trans hlh hh, hlow, fun i hi => hhigh i hi⟩
  | succ fuel ih =>
    intro low high hh hlh hfuel hlow hhigh
    rw [sortedIndexGo]
    by_cases hcmp : low < high
    · rw [if_pos hcmp]
      have hdm := Nat.div_add_mod (low + high) 2
      have hmid1 : low ≤ (low + high) / 2 := by omega
      have hmid2 : (low + high) / 2 < high := by omega
      by_cases hkey : strLtB (key (arr.getD ((low + high) / 2) 0)) v = true
      · rw [if_pos hkey]
        refine ih ((low + high) / 2 + 1) high hh (by omega) (by omega) ?_ hhigh
        intro i hi
        rcases Nat.lt_or_ge i low with h' | h'
        · exact hlow i h'
        · rcases Nat.lt_or_ge i ((low + high) / 2) with h'' | h''
          · refine strLt_of_le_of_lt
              (pairwise_getD hsorted h'' (lt_of_lt_of_le hmid2 hh))
              (strLtB_eq_true.mp hkey)
          · have : i = (low + high) / 2 := by omega
            subst this
            exact strLtB_eq_true.mp hkey
      · rw [if_neg hkey]
        have hkey' : ¬ strLt (key (arr.getD ((low + high) / 2) 0)) v :=
          strLtB_eq_false.mp (Bool.eq_false_iff.mpr hkey)
        refine ih low ((low + high) / 2) (by omega) (by omega) (by omega) hlow ?_
        intro i hi hilen
        rcases Nat.lt_or_ge i high with h' | h'
        · rcases Nat.lt_or_ge ((low + high) / 2) i with h'' | h''
          · exact not_strLt_of_le (pairwise_getD hsorted h'' hilen) hkey'
          · have : i = (low + high) / 2 := by omega
            subst this
            exact hkey'
        · exact hhigh i h' hilen
    · rw [if_neg hcmp]
      have : low = high := by omega
      subst this
      exact ⟨le_trans hlh hh, hlow, fun i hi => hhigh i hi⟩

theorem sortedIndexBy_spec (key : Nat → String) (v : Nat) (arr : List Nat)
    (hsorted : arr.Pairwise (fun i j => strLe (key i) (key j))) :
    sortedIndexBy key v arr ≤ arr.length ∧
    (∀ i, i < sortedIndexBy key v arr → strLt (key (arr.getD i 0)) (key v)) ∧
    (∀ i, sortedIndexBy key v arr ≤ i → i < arr.length →
      ¬ strLt (key (arr.getD i 0)) (key v)) := by
  rw [sortedIndexBy]
  exact sortedIndexGo_spec key (key v) arr hsorted arr.length 0 arr.length
    (le_refl _) (Nat.zero_le _) (by omega)
    (fun i hi => absurd hi (Nat.not_lt_zero i))
    (fun i hi hilen => absurd hilen (Nat.not_lt.mpr hi))

theorem insertIdx_eq_take_drop {α : Type} (a : α) :
    ∀ (n : Nat) (l : List α), n ≤ l.length →
      l.insertIdx n a = l.take n ++ a :: l.drop n
  | 0, l, _ => by simp
  | n + 1, [], h => by simp at h
  | n + 1, x :: l, h => by
    rw [List.insertIdx_succ_cons, insertIdx_eq_take_drop a n l (by simpa using h)]
    simp

theorem pairwise_insertIdx_sorted (key : Nat → String) (e : Nat) (arr : List Nat)
    (hs : arr.Pairwise (fun i j => strLe (key i) (key j))) :
    (arr.insertIdx (sortedIndexBy key e arr) e).Pairwise
      (fun i j => strLe (key i) (key j)) := by
  obtain ⟨hle, hbefore, hafter⟩ := sortedIndexBy_spec key e arr hs
  rw [insertIdx_eq_take_drop e _ arr hle, List.pairwise_append]
  have hmem_take : ∀ x ∈ arr.take (sortedIndexBy key e arr), strLt (key x) (key e) := by
    intro x hx
    obtain ⟨j, hj, hget⟩ := List.mem_iff_getElem.mp hx
    have hjr : j < sortedIndexBy key e arr := by
      have := hj
      rw [List.length_take] at this
      omega
    have hjl : j < arr.length := lt_of_lt_of_le hjr hle
    rw [List.getElem_take] at hget
    have hlt := hbefore j hjr
    rw [getD_eq_getElem' arr 0 hjl, hget] at hlt
    exact hlt
  have hmem_drop : ∀ y ∈ arr.drop (sortedIndexBy key e arr),
      ¬ strLt (key y) (key e) := by
    intro y hy
    obtain ⟨j, hj, hget⟩ := List.mem_iff_getElem.mp hy
    rw [List.length_drop] at hj
    have hjl : sortedIndexBy key e arr + j < arr.length := by omega
    rw [List.getElem_drop] at hget
    have hnlt := hafter (sortedIndexBy key e arr + j) (by omega) hjl
    rw [getD_eq_getElem' arr 0 hjl, hget] at hnlt
    exact hnlt
  refine ⟨hs.sublist (List.take_sublist _ _), ?_, ?_⟩
  · rw [List.pairwise_cons]
    refine ⟨fun y hy => hmem_drop y hy, hs.sublist (List.drop_sublist _ _)⟩
  · intro x hx y hy
    rcases List.mem_cons.mp hy with rfl | hy'
    · exact lexLt_asymm (hmem_take x hx)
    · intro hc
      exact hmem_drop y hy' (lexLt_trans hc (hmem_take x hx))

theorem scanLoop_scan_complete (sort : Bool) (filters : List Filter)
    (messages : List Record) :
    ∀ (remaining : List Record) (st st' : ScanState),
      scanLoop sort filters messages remaining st = (st', none) →
      st'.scan = st.scan + remaining.length
  | [], st, st', h => by
    rw [scanLoop] at h
    obtain rfl : st = st' := (Prod.mk.injEq .. ▸ h).1
    simp
  | message :: rest, st, st', h => by
    rw [scanLoop] at h
    cases htest : testAll filters message with
    | error e =>
      rw [htest] at h
      exact absurd (Prod.mk.injEq .. ▸ h).2 (by simp)
    | ok pass =>
      rw [htest] at h
      have hrec := scanLoop_scan_complete sort filters messages rest _ st' h
      dsimp only at hrec
      simp only [List.length_cons]
      omega

theorem scanLoop_append_invariant (filters : List Filter) (messages : List Record) :
    ∀ (remaining : List Record) (st st' : ScanState),
      st.matching.Pairwise (· < ·) →
      (∀ i ∈ st.matching, i < st.scan) →
      scanLoop false filters messages remaining st = (st', none) →
      st'.matching.Pairwise (· < ·) ∧ (∀ i ∈ st'.matching, i < st'.scan)
  | [], st, st', hp, hb, h => by
    rw [scanLoop] at h
    obtain rfl : st = st' := (Prod.mk.injEq .. ▸ h).1
    exact ⟨hp, hb⟩
  | message :: rest, st, st', hp, hb, h => by
    rw [scanLoop] at h
    cases htest : testAll filters message with
    | error e =>
      rw [htest] at h
      exact absurd (Prod.mk.injEq .. ▸ h).2 (by simp)
    | ok pass =>
      rw [htest] at h
      refine scanLoop_append_invariant filters messages rest _ st' ?_ ?_ h
      · dsimp only
        split
        · rw [if_neg (by simp), List.pairwise_append]
          exact ⟨hp, List.pairwise_singleton _ _,
            fun x hx y hy => by
              obtain rfl : y = st.scan := by simpa using hy
              exact hb x hx⟩
        · exact hp
      · intro i hi
        show i < st.scan + 1
        dsimp only at hi
        split at hi
        · rw [if_neg (by simp)] at hi
          rcases List.mem_append.mp hi with h' | h'
          · exact Nat.lt_succ_of_lt (hb i h')
          · obtain rfl : i = st.scan := by simpa using h'
            exact Nat.lt_succ_self st.scan
        · exact Nat.lt_succ_of_lt (hb i hi)

theorem scanLoop_sorted_invariant (filters : List Filter) (messages : List Record) :
    ∀ (remaining : List Record) (st st' : ScanState),
      st.matching.Pairwise
        (fun i j => strLe (sortKeyAt messages i) (sortKeyAt messages j)) →
      scanLoop true filters messages remaining st = (st', none) →
      st'.matching.Pairwise
        (fun i j => strLe (sortKeyAt messages i) (sortKeyAt messages j))
  | [], st, st', hp, h => by
    rw [scanLoop] at h
    obtain rfl : st = st' := (Prod.mk.injEq .. ▸ h).1
    exact hp
  | message :: rest, st, st', hp, h => by
    rw [scanLoop] at h
    cases htest : testAll filters message with
    | error e =>
      rw [htest] at h
      exact absurd (Prod.mk.injEq .. ▸ h).2 (by simp)
    | ok pass =>
      rw [htest] at h
      refine scanLoop_sorted_invariant filters messages rest _ st' ?_ h
      dsimp only
      split
      · rw [if_pos rfl]
        exact pairwise_insertIdx_sorted (sortKeyAt messages) st.scan st.matching hp
      · exact hp

/-- Claim C5: after any completed fault-free scan pass from a fresh
rescan the scan cursor equals the store length, and the Matching Index is
a strictly increasing subsequence of store positions in append mode
(strictly increasing positions, all within the store), and is sorted by
the Records' `_sort` keys in sorted mode — for every store, hence
regardless of the order in which Records arrived. -/
theorem c5_matching_order (sort : Bool) (filters : List Filter)
    (messages : List Record) (st : ScanState)
    (hrun : runScan sort filters messages = (st, none)) :
    st.scan = messages.length ∧
    (sort = false →
      st.matching.Pairwise (· < ·) ∧ ∀ i ∈ st.matching, i < messages.length) ∧
    (sort = true →
      st.matching.Pairwise
        (fun i j => strLe (sortKeyAt messages i) (sortKeyAt messages j))) := by
  rw [runScan] at hrun
  have hscan : st.scan = messages.length := by
    have := scanLoop_scan_complete sort filters messages messages ⟨0, []⟩ st hrun
    simpa using this
  refine ⟨hscan, fun hsort => ?_, fun hsort => ?_⟩
  · subst hsort
    obtain ⟨hp, hb⟩ := scanLoop_append_invariant filters messages messages ⟨0, []⟩ st
      (List.Pairwise.nil) (by simp) hrun
    exact ⟨hp, fun i hi => hscan ▸ hb i hi⟩
  · subst hsort
    exact scanLoop_sorted_invariant filters messages messages ⟨0, []⟩ st
      (List.Pairwise.nil) hrun

/-- Witness for C5, realizing spec Scenario B: two records arrive in
arrival order `recA` (sort key `"2"`) then `recB` (sort key `"1"`); the
completed sorted-mode scan yields the Matching Index `[1, 0]`, i.e. the
earlier-keyed record first. -/
theorem c5_matching_order_witness :
    ((⟨2, [1, 0]⟩ : ScanState).scan = ([recA, recB] : List Record).length ∧
    (true = false →
      (⟨2, [1, 0]⟩ : ScanState).matching.Pairwise (· < ·) ∧
        ∀ i ∈ (⟨2, [1, 0]⟩ : ScanState).matching,
          i < ([recA, recB] : List Record).length) ∧
    (true = true →
      (⟨2, [1, 0]⟩ : ScanState).matching.Pairwise
        (fun i j => strLe (sortKeyAt [recA, recB] i) (sortKeyAt [recA, recB] j)))) :=
  c5_matching_order true [filterNull] [recA, recB] ⟨2, [1, 0]⟩ (by decide)

instance : IsTrans String strLt := ⟨fun _ _ _ => lexLt_trans⟩

theorem natDigits_toDigitsCore :
    ∀ (fuel n : Nat) (ds : List Char), n < fuel →
      Nat.toDigitsCore 10 fuel n ds = natDigits n ++ ds
  | 0, n, _, h => absurd h (Nat.not_lt_zero n)
  | fuel + 1, n, ds, h => by
    show (if n / 10 = 0 then Nat.digitChar (n % 10) :: ds
      else Nat.toDigitsCore 10 fuel (n / 10) (Nat.digitChar (n % 10) :: ds)) =
      natDigits n ++ ds
    by_cases h10 : n / 10 = 0
    · have hn : n < 10 := (Nat.div_eq_zero_iff (by omega)).mp h10
      rw [if_pos h10, natDigits, if_pos hn, Nat.mod_eq_of_lt hn]
      rfl
    · have hn : 10 ≤ n := by
        rcases Nat.lt_or_ge n 10 with h' | h'
        · exact absurd (Nat.div_eq_of_lt h') h10
        · exact h'
      have hdlt : n / 10 < n := Nat.div_lt_self (by omega) (by omega)
      rw [if_neg h10]
      conv_rhs => rw [natDigits]
      rw [if_neg (show ¬ n < 10 by omega),
        natDigits_toDigitsCore fuel (n / 10) (Nat.digitChar (n % 10) :: ds)
          (by omega)]
      simp

theorem repr_data (n : Nat) : (Nat.repr n).data = natDigits n := by
  unfold Nat.repr Nat.toDigits
  rw [natDigits_toDigitsCore (n + 1) n [] (Nat.lt_succ_self n)]
  simp [List.asString]

theorem digitsFW_length : ∀ (k n : Nat), (digitsFW k n).length = k
  | 0, _ => rfl
  | k + 1, n => by simp [digitsFW, digitsFW_length k n]

theorem digitsFW_mod : ∀ (k n : Nat), digitsFW k (n % 10 ^ k) = digitsFW k n
  | 0, _ => rfl
  | k + 1, n => by
    rw [digitsFW, digitsFW]
    congr 1
    · congr 1
      rw [pow_succ, Nat.mod_mul_right_div_self]
      exact Nat.mod_mod_of_dvd _ dvd_rfl
    · rw [(digitsFW_mod k (n % 10 ^ (k + 1))).symm,
        Nat.mod_mod_of_dvd _ (pow_dvd_pow 10 (Nat.le_succ k)), digitsFW_mod k n]

theorem digitsFW_succ_append : ∀ (k n : Nat),
    digitsFW (k + 1) n = digitsFW k (n / 10) ++ [Nat.digitChar (n % 10)]
  | 0, n => by simp [digitsFW]
  | k + 1, n => by
    have hd : n / 10 / 10 ^ k = n / 10 ^ (k + 1) := by
      rw [Nat.div_div_eq_div_mul, pow_succ, Nat.mul_comm]
    calc digitsFW (k + 2) n
        = Nat.digitChar (n / 10 ^ (k + 1) % 10) :: digitsFW (k + 1) n := rfl
      _ = Nat.digitChar (n / 10 ^ (k + 1) % 10) ::
          (digitsFW k (n / 10) ++ [Nat.digitChar (n % 10)]) := by
            rw [digitsFW_succ_append k n]
      _ = (Nat.digitChar (n / 10 ^ (k + 1) % 10) :: digitsFW k (n / 10)) ++
          [Nat.digitChar (n % 10)] := rfl
      _ = (Nat.digitChar (n / 10 / 10 ^ k % 10) :: digitsFW k (n / 10)) ++
          [Nat.digitChar (n % 10)] := by rw [hd]
      _ = digitsFW (k + 1) (n / 10) ++ [Nat.digitChar (n % 10)] := rfl

theorem natDigits_eq_digitsFW : ∀ (k n : Nat), n < 10 ^ (k + 1) →
    (10 ^ k ≤ n ∨ k = 0) → natDigits n = digitsFW (k + 1) n
  | 0, n, hlt, _ => by
    have hn : n < 10 := by simpa using hlt
    rw [natDigits, if_pos hn]
    simp [digitsFW, Nat.mod_eq_of_lt hn]
  | k + 1, n, hlt, hge => by
    rcases hge with hge | hk
    · have h10 : 10 ≤ n := by
        calc 10 = 10 ^ 1 := (pow_one 10).symm
          _ ≤ 10 ^ (k + 1) := Nat.pow_le_pow_right (by omega) (by omega)
          _ ≤ n := hge
      have hdiv_lt : n / 10 < 10 ^ (k + 1) := by
        rw [Nat.div_lt_iff_lt_mul (by omega : 0 < 10)]
        calc n < 10 ^ (k + 2) := hlt
          _ = 10 ^ (k + 1) * 10 := pow_succ 10 (k + 1)
      have hdiv_ge : 10 ^ k ≤ n / 10 := by
        rw [Nat.le_div_iff_mul_le (by omega : 0 < 10)]
        calc 10 ^ k * 10 = 10 ^ (k + 1) := (pow_succ 10 k).symm
          _ ≤ n := hge
      rw [natDigits, if_neg (by omega),
        natDigits_eq_digitsFW k (n / 10) hdiv_lt (Or.inl hdiv_ge),
        ← digitsFW_succ_append (k + 1) n]
    · exact absurd hk (Nat.succ_ne_zero k)

theorem digitsFW_replicate : ∀ (k d n : Nat), n < 10 ^ d → d ≤ k →
    digitsFW k n = List.replicate (k - d) '0' ++ digitsFW d n
  | 0, d, n, _, hdk => by
    have h0 : d = 0 := by omega
    subst h0
    rfl
  | k + 1, d, n, hn, hdk => by
    by_cases hd : d = k + 1
    · subst hd
      simp
    · have hdk' : d ≤ k := by omega
      have hzero : n / 10 ^ k = 0 :=
        Nat.div_eq_of_lt (lt_of_lt_of_le hn (Nat.pow_le_pow_right (by omega) hdk'))
      rw [digitsFW, hzero, digitsFW_replicate k d n hn hdk',
        show k + 1 - d = (k - d) + 1 by omega, List.replicate_succ]
      rfl

theorem toString_data_eq (n : Nat) : (toString n).data = natDigits n :=
  repr_data n

theorem padStart_toString_data (w n : Nat) (hn : n < 10 ^ w) (hw : 1 ≤ w) :
    (padStart w (toString n)).data = digitsFW w n := by
  obtain ⟨k, hk1, hk2⟩ : ∃ k, n < 10 ^ (k + 1) ∧ (10 ^ k ≤ n ∨ k = 0) := by
    by_cases h0 : n = 0
    · subst h0
      exact ⟨0, by norm_num, Or.inr rfl⟩
    · exact ⟨Nat.log 10 n, Nat.lt_pow_succ_log_self (by omega) n,
        Or.inl (Nat.pow_log_le_self 10 h0)⟩
  have hnd : natDigits n = digitsFW (k + 1) n := natDigits_eq_digitsFW k n hk1 hk2
  have hk_le : k + 1 ≤ w := by
    rcases hk2 with hge | hk0
    · have hlt : 10 ^ k < 10 ^ w := lt_of_le_of_lt hge hn
      have := (Nat.pow_lt_pow_iff_right (by omega : 1 < 10)).mp hlt
      omega
    · omega
  have hlen : (toString n).length = k + 1 := by
    show (toString n).data.length = k + 1
    rw [toString_data_eq, hnd, digitsFW_length]
  rw [padStart]
  show List.replicate (w - (toString n).length) '0' ++ (toString n).data = digitsFW w n
  rw [hlen, toString_data_eq, hnd, digitsFW_replicate w (k + 1) n hk1 hk_le]

theorem digitChar_mono : ∀ a < 10, ∀ b < 10, a < b →
    Nat.digitChar a < Nat.digitChar b := by decide

theorem digitsFW_lt : ∀ (k a b : Nat), a < b → b < 10 ^ k →
    List.Lex (· < ·) (digitsFW k a) (digitsFW k b)
  | 0, a, b, hab, hb => absurd hab (by omega)
  | k + 1, a, b, hab, hb => by
    have hps : 10 ^ (k + 1) = 10 ^ k * 10 := pow_succ 10 k
    have hb10 : b / 10 ^ k < 10 := by
      rw [Nat.div_lt_iff_lt_mul (pow_pos (by omega) k)]
      omega
    have hdivle : a / 10 ^ k ≤ b / 10 ^ k := Nat.div_le_div_right (le_of_lt hab)
    have hma : a / 10 ^ k % 10 = a / 10 ^ k :=
      Nat.mod_eq_of_lt (lt_of_le_of_lt hdivle hb10)
    have hmb : b / 10 ^ k % 10 = b / 10 ^ k := Nat.mod_eq_of_lt hb10
    show List.Lex (· < ·)
      (Nat.digitChar (a / 10 ^ k % 10) :: digitsFW k a)
      (Nat.digitChar (b / 10 ^ k % 10) :: digitsFW k b)
    rcases lt_or_eq_of_le hdivle with hlt | heq
    · rw [hma, hmb]
      exact List.Lex.rel
        (digitChar_mono _ (lt_of_le_of_lt hdivle hb10) _ hb10 hlt)
    · rw [hma, hmb, heq]
      apply List.Lex.cons
      rw [← digitsFW_mod k a, ← digitsFW_mod k b]
      refine digitsFW_lt k (a % 10 ^ k) (b % 10 ^ k) ?_
        (Nat.mod_lt b (pow_pos (by omega) k))
      have hda := Nat.div_add_mod a (10 ^ k)
      have hdb := Nat.div_add_mod b (10 ^ k)
      rw [← heq] at hdb
      omega

theorem lexLt_append_of_lex {u v : List Char} :
    ∀ {s t : List Char}, List.Lex (· < ·) s t → s.length = t.length →
      List.Lex (· < ·) (s ++ u) (t ++ v)
  | _, _, List.Lex.nil, hlen => by simp at hlen
  | _, _, List.Lex.cons h, hlen =>
    List.Lex.cons (lexLt_append_of_lex h (by simpa using hlen))
  | _, _, List.Lex.rel h, _ => List.Lex.rel h

theorem mkSort_lt {t t' l l' : Nat} (i : Nat) (htt : t ≤ t') (ht' : t' < 10 ^ 13)
    (hll : l < l') (hl' : l' < 10 ^ 9) :
    strLt (mkSort t i l) (mkSort t' i l') := by
  have hdt : (padStart 13 (toString t)).data = digitsFW 13 t :=
    padStart_toString_data 13 t (lt_of_le_of_lt htt ht') (by omega)
  have hdt' : (padStart 13 (toString t')).data = digitsFW 13 t' :=
    padStart_toString_data 13 t' ht' (by omega)
  have hdl : (padStart 9 (toString l)).data = digitsFW 9 l :=
    padStart_toString_data 9 l (lt_trans hll hl') (by omega)
  have hdl' : (padStart 9 (toString l')).data = digitsFW 9 l' :=
    padStart_toString_data 9 l' hl' (by omega)
  show List.Lex (· < ·) (mkSort t i l).data (mkSort t' i l').data
  rw [mkSort, mkSort]
  simp only [String.data_append, hdt, hdt', hdl, hdl',
    show (":" : String).data = [':'] from rfl, List.append_assoc]
  rcases lt_or_eq_of_le htt with hlt | heq
  · exact lexLt_append_of_lex (digitsFW_lt 13 t t' hlt ht')
      (by rw [digitsFW_length, digitsFW_length])
  · subst heq
    exact List.Lex.append_left _
      (List.Lex.cons (List.Lex.append_left _
        (List.Lex.cons (digitsFW_lt 9 l l' hll hl')) _)) _

theorem ingestLoop_sort_eq (idx : Nat) :
    ∀ (msgs : List Record) (time line j : Nat),
      j < msgs.length → (msgs.getD j default).timeMs = none →
      ((ingestLoop idx msgs time line).getD j default)._sort =
        mkSort ((msgs.take j).foldl (fun acc m => m.timeMs.getD acc) time) idx
          (line + j + 1)
  | [], _, _, j, hj, _ => absurd hj (by simp)
  | m :: rest, time, line, 0, _, hnone => by
    rw [List.getD_cons_zero] at hnone
    rw [ingestLoop]
    show ({ m with _sort := mkSort (match m.timeMs with
        | some t => t
        | none => time) idx (line + 1) })._sort = _
    rw [hnone]
    simp
  | m :: rest, time, line, j + 1, hj, hnone => by
    rw [List.getD_cons_succ] at hnone
    rw [ingestLoop]
    show ((ingestLoop idx rest (match m.timeMs with
        | some t => t
        | none => time) (line + 1)).getD j default)._sort = _
    rw [ingestLoop_sort_eq idx rest _ (line + 1) j (by simpa using hj) hnone]
    have harg : (match m.timeMs with
        | some t => t
        | none => time) = m.timeMs.getD time := by
      cases m.timeMs <;> rfl
    rw [harg]
    have htake : ((m :: rest).take (j + 1)).foldl
        (fun acc r => r.timeMs.getD acc) time =
        (rest.take j).foldl (fun acc r => r.timeMs.getD acc) (m.timeMs.getD time) := by
      rw [List.take_succ_cons, List.foldl_cons]
    rw [htake, show line + 1 + j + 1 = line + (j + 1) + 1 by omega]

theorem ingestLoop_chain (idx : Nat) :
    ∀ (msgs : List Record) (time line : Nat),
      time < 10 ^ 13 →
      (∀ m ∈ msgs, ∀ t, m.timeMs = some t → t < 10 ^ 13) →
      line + msgs.length < 10 ^ 9 →
      List.Chain' (· ≤ ·) (time :: msgs.filterMap Record.timeMs) →
      List.Chain' strLt ((ingestLoop idx msgs time line).map Record._sort)
  | [], _, _, _, _, _, _ => List.chain'_nil
  | m :: rest, time, line, htime, hbound, hline, hmono => by
    have harg : (match m.timeMs with
        | some t => t
        | none => time) = m.timeMs.getD time := by
      cases m.timeMs <;> rfl
    have htime' : m.timeMs.getD time < 10 ^ 13 := by
      cases hm : m.timeMs with
      | none => simpa using htime
      | some t =>
        simpa using hbound m (List.mem_cons_self m rest) t hm
    have hmono' : List.Chain' (· ≤ ·)
        (m.timeMs.getD time :: rest.filterMap Record.timeMs) := by
      cases hm : m.timeMs with
      | none =>
        rw [Option.getD_none]
        have : (m :: rest).filterMap Record.timeMs = rest.filterMap Record.timeMs := by
          rw [List.filterMap_cons, hm]
        rwa [this] at hmono
      | some t =>
        rw [Option.getD_some]
        have : (m :: rest).filterMap Record.timeMs =
            t :: rest.filterMap Record.timeMs := by
          rw [List.filterMap_cons, hm]
        rw [this] at hmono
        exact (List.chain'_cons.mp hmono).2
    rw [ingestLoop]
    show List.Chain' strLt
      ((mkSort (match m.timeMs with
        | some t => t
        | none => time) idx (line + 1)) ::
        (ingestLoop idx rest (match m.timeMs with
          | some t => t
          | none => time) (line + 1)).map Record._sort)
    rw [harg]
    rw [List.chain'_cons']
    constructor
    · intro b hb
      cases rest with
      | nil => simp [ingestLoop] at hb
      | cons m2 rest2 =>
        have harg2 : (match m2.timeMs with
            | some t => t
            | none => m.timeMs.getD time) = m2.timeMs.getD (m.timeMs.getD time) := by
          cases m2.timeMs <;> rfl
        rw [ingestLoop] at hb
        rw [show ((({ m2 with _sort := mkSort (match m2.timeMs with
            | some t => t
            | none => m.timeMs.getD time) idx (line + 1 + 1) }) ::
            ingestLoop idx rest2 (match m2.timeMs with
              | some t => t
              | none => m.timeMs.getD time) (line + 1 + 1)).map Record._sort).head? =
            some (mkSort (match m2.timeMs with
              | some t => t
              | none => m.timeMs.getD time) idx (line + 1 + 1)) from rfl] at hb
        obtain rfl : mkSort (match m2.timeMs with
            | some t => t
            | none => m.timeMs.getD time) idx (line + 1 + 1) = b := by
          simpa using hb
        rw [harg2]
        have hstep : m.timeMs.getD time ≤ m2.timeMs.getD (m.timeMs.getD time) := by
          cases hm2 : m2.timeMs with
          | none => simp
          | some t2 =>
            rw [Option.getD_some]
            have : (m2 :: rest2).filterMap Record.timeMs =
                t2 :: rest2.filterMap Record.timeMs := by
              rw [List.filterMap_cons, hm2]
            rw [this] at hmono'
            exact (List.chain'_cons.mp hmono').1
        have hb2 : m2.timeMs.getD (m.timeMs.getD time) < 10 ^ 13 := by
          cases hm2 : m2.timeMs with
          | none => simpa using htime'
          | some t2 =>
            simpa using hbound m2
              (List.mem_cons_of_mem m (List.mem_cons_self m2 rest2)) t2 hm2
        refine mkSort_lt idx hstep hb2 (by omega) ?_
        have := hline
        simp only [List.length_cons] at this
        omega
    · refine ingestLoop_chain idx rest (m.timeMs.getD time) (line + 1) htime' ?_ ?_ hmono'
      · intro m' hm' t ht
        exact hbound m' (List.mem_cons_of_mem m hm') t ht
      · have := hline
        simp only [List.length_cons] at this
        omega

/-- Claim C10: during ingestion a decoded line that lacks a `time` key
receives in its sort key the most recent timestamp previously seen on the
same source (0 if no timestamped line preceded it); consequently, within
one source the fixed-width sort keys (13-digit time, 4-digit source
index, 9-digit line number) are strictly increasing whenever the
timestamps are non-decreasing, their millisecond values fit in 13 digits,
and the line count fits the 9-digit width. -/
theorem c10_sort_keys (idx : Nat) (msgs : List Record)
    (htimes : ∀ m ∈ msgs, ∀ t, m.timeMs = some t → t < 10 ^ 13)
    (hmono : List.Chain' (· ≤ ·) (msgs.filterMap Record.timeMs))
    (hlen : msgs.length < 10 ^ 9) :
    (∀ j, j < msgs.length → (msgs.getD j default).timeMs = none →
      ((ingest idx msgs).getD j default)._sort =
        mkSort (lastTime (msgs.take j)) idx (j + 1)) ∧
    List.Pairwise strLt ((ingest idx msgs).map Record._sort) := by
  constructor
  · intro j hj hnone
    rw [ingest, ingestLoop_sort_eq idx msgs 0 0 j hj hnone]
    unfold lastTime
    rw [Nat.zero_add]
  · rw [← List.chain'_iff_pairwise]
    rw [ingest]
    refine ingestLoop_chain idx msgs 0 0 (by norm_num) htimes (by omega) ?_
    rw [List.chain'_cons']
    exact ⟨fun b _ => Nat.zero_le b, hmono⟩

/-- Witness for C10 at the concrete source-2 stream: a record with
timestamp 5, a record with no time key (which inherits 5), then a record
with timestamp 7. -/
theorem c10_sort_keys_witness :
    (∀ j, j < ([recT5, recTN, recT7] : List Record).length →
      (([recT5, recTN, recT7] : List Record).getD j default).timeMs = none →
      ((ingest 2 [recT5, recTN, recT7]).getD j default)._sort =
        mkSort (lastTime (([recT5, recTN, recT7] : List Record).take j)) 2 (j + 1)) ∧
    List.Pairwise strLt ((ingest 2 [recT5, recTN, recT7]).map Record._sort) :=
  c10_sort_keys 2 [recT5, recTN, recT7]
    (by
      intro m hm t ht
      rcases (by simpa using hm : m = recT5 ∨ m = recTN ∨ m = recT7) with
        rfl | rfl | rfl
      · obtain rfl : (5 : Nat) = t := by simpa [recT5] using ht
        norm_num
      · exact absurd ht (by simp [recTN])
      · obtain rfl : (7 : Nat) = t := by simpa [recT7] using ht
        norm_num)
    (by
      rw [show ([recT5, recTN, recT7] : List Record).filterMap Record.timeMs
          = [5, 7] from rfl]
      exact List.chain'_cons.mpr ⟨by omega, List.chain'_singleton 7⟩)
    (by norm_num)

/-- Claim C9: the filter stack is never empty: it starts as
`[filterNull]`, and after every sequence of filter commands (pushes,
Backspace pops, Meta-Backspace clear-alls, level replacements) its length
is at least 1; clear-all, and popping when only slot 0 remains, replace
slot 0 with the always-true null filter instead of emptying the stack, so
`testAll` is applied to a well-formed stack in every reachable state. -/
theorem c9_filter_stack_nonempty :
    (∀ ops : List FilterOp, 1 ≤ (ops.foldl applyFilterOp [filterNull]).length) ∧
    (∀ fs : List Filter, applyFilterOp fs (.backspace true) = [filterNull]) ∧
    (∀ f : Filter, applyFilterOp [f] (.backspace false) = [filterNull]) :=
  ⟨fun ops => foldl_applyFilterOp_length ops [filterNull] (by simp),
   fun fs => by simp [applyFilterOp],
   fun f => by simp [applyFilterOp]⟩

end Uncloggr
